import Mathlib

/-!
Shallow embedding of the dynomite-derive schema-mapping core
(src/dynomite-derive/src/lib.rs).

The crate is a procedural-macro compiler: given a named-field struct (a
record definition: ordered fields, each with a name, a codec for its type,
and optional `#[hash]` / `#[range]` role attributes) it generates

  * `impl From<Name> for Attributes`  (`get_to_attribute_map_function`),
  * `impl FromAttributes for Name` with `from_attrs`
    (`get_from_attributes_function`),
  * `impl Item for Name` with `key(&self)` (`get_item_trait` /
    `get_key_inserter`), emitted only when a hash field exists,
  * a `<Name>Key` struct holding the key fields (`get_key_struct`),
and, for enums, an `Attribute` impl (`make_dynomite_attr`).

We embed the *semantics of the generated code*, generically over the record
shape: a field's declared Rust type is represented by its codec into a
shared value universe `V`; a record value is the list of its fields paired
with their values, in declaration order.  Rust's `HashMap<String,
AttributeValue>` is modelled as an association list with unique keys
(`insertKey` replaces an existing binding exactly as `HashMap::insert`
does; `removeKey` removes the binding as `HashMap::remove` does).
Proc-macro `panic!`s are modelled as `Except.error` carrying the panic
message.
-/

namespace Dynomite

/-- Modelled from the spec: the host `AttributeValue` type (rusoto), a
struct of optional variant payloads with a `Default` of all-`none`.  The
derive crate only ever constructs `AttributeValue { s: Some(..),
..Default::default() }` and inspects `.s`; the remaining variants are
opaque payloads produced by the pluggable scalar codecs. -/
structure AttributeValue where
  s : Option String := none
  n : Option String := none
  b : Option (List Nat) := none
  bool : Option Bool := none
  null : Option Bool := none
  deriving DecidableEq, Repr

/-- Modelled from the spec: the host `::dynomite::AttributeError` error
surface (§6): codec errors `InvalidType` / `InvalidFormat`, and the
mapping errors `MissingField {name}` and its sibling `InvalidField {name,
cause}`.  The derive code in src/ constructs only `InvalidType`,
`InvalidFormat` and `MissingField`. -/
inductive AttributeError where
  | InvalidType
  | InvalidFormat
  | MissingField (name : String)
  | InvalidField (name : String) (cause : AttributeError)
  deriving DecidableEq, Repr

/-- The field name carried by a conversion error, when it carries one. -/
def errorFieldName : AttributeError → Option String
  | .MissingField name => some name
  | .InvalidField name _ => some name
  | _ => none

/-- The map type `::dynomite::Attributes = HashMap<String, AttributeValue>`, as an
association list with unique keys. -/
abbrev AttrMap := List (String × AttributeValue)

/-- Rust `HashMap::remove(k)`: the removed value (if any) and the remaining map. -/
def removeKey (k : String) : AttrMap → Option AttributeValue × AttrMap
  | [] => (none, [])
  | (k2, v) :: rest =>
    if k2 = k then (some v, rest)
    else
      let r := removeKey k rest
      (r.1, (k2, v) :: r.2)

/-- Rust `HashMap::insert(k, v)`: replaces any existing binding of `k`. -/
def insertKey (m : AttrMap) (k : String) (v : AttributeValue) : AttrMap :=
  m.filter (fun kv => kv.1 ≠ k) ++ [(k, v)]

/-- Rust `HashMap::get(k)` (first binding of `k`). -/
def lookupKey (m : AttrMap) (k : String) : Option AttributeValue :=
  (m.find? (fun kv => kv.1 = k)).map Prod.snd

/- ### Enum attribute codec (`make_dynomite_attr`) -/

/-- Generated `into_attr` for a derived enum: the matched variant is
stringified to its own name and wrapped as
`AttributeValue { s: Some(arm), ..Default::default() }`.  A variant is
represented by its (stringified) name; the enum type itself by the ordered
list of its variant names. -/
def enum_into_attr (v : String) : AttributeValue := { s := some v }

/-- Generated `from_attr` for a derived enum with variants `variants`:
`value.s.ok_or(InvalidType)` then a match running through the variant
arms in declaration order, defaulting to `Err(InvalidFormat)`. -/
def enum_from_attr (variants : List String) (a : AttributeValue) :
    Except AttributeError String :=
  match a.s with
  | none => .error .InvalidType
  | some str =>
    match variants.find? (fun l => l == str) with
    | some l => .ok l
    | none => .error .InvalidFormat

lemma find_beq_self_of_mem {v : String} :
    ∀ {l : List String}, v ∈ l → l.find? (fun x => x == v) = some v := by
  intro l hv
  induction l with
  | nil => cases hv
  | cons h t ih =>
    by_cases hh : h = v
    · subst hh
      simp [List.find?]
    · have hv2 : v ∈ t := by
        cases hv with
        | head => exact absurd rfl hh
        | tail _ h2 => exact h2
      have hb : (h == v) = false := by
        simp [hh]
      simp [List.find?, hb, ih hv2]

/-- C4: for a derived enum, `into_attr` sends each variant to the
string-variant attribute value carrying the variant's own name;
`from_attr (into_attr v) = v` for every variant `v` of the enum;
`from_attr` fails with `InvalidType` when the attribute value has no
string payload, and with `InvalidFormat` when the string payload matches
no variant name. -/
theorem enum_codec_closure (variants : List String) (v : String)
    (a : AttributeValue) (hv : v ∈ variants) :
    enum_into_attr v = { s := some v } ∧
    enum_from_attr variants (enum_into_attr v) = .ok v ∧
    (a.s = none → enum_from_attr variants a = .error .InvalidType) ∧
    (∀ str, a.s = some str → str ∉ variants →
      enum_from_attr variants a = .error .InvalidFormat) := by
  refine ⟨rfl, ?_, ?_, ?_⟩
  · simp [enum_from_attr, enum_into_attr, find_beq_self_of_mem hv]
  · intro hs
    simp [enum_from_attr, hs]
  · intro str hs hstr
    have hnone : variants.find? (fun l => l == str) = none := by
      rw [List.find?_eq_none]
      intro x hx
      simp only [beq_iff_eq]
      intro hxe
      exact hstr (hxe ▸ hx)
    simp [enum_from_attr, hs, hnone]

/-- Witness for C4 at the spec's own example: variants `{A, B, C}`,
round trip on `B`, `InvalidFormat` on the string `"Z"`, `InvalidType` on a
number-valued attribute. -/
theorem enum_codec_closure_witness :
    enum_from_attr ["A", "B", "C"] (enum_into_attr "B") = .ok "B" ∧
    enum_from_attr ["A", "B", "C"] { n := some "1" } =
      .error .InvalidType ∧
    enum_from_attr ["A", "B", "C"] { s := some "Z" } =
      .error .InvalidFormat := by
  refine ⟨?_, ?_, ?_⟩
  · exact (enum_codec_closure ["A", "B", "C"] "B" { n := some "1" }
      (by decide)).2.1
  · exact (enum_codec_closure ["A", "B", "C"] "B" { n := some "1" }
      (by decide)).2.2.1 rfl
  · exact (enum_codec_closure ["A", "B", "C"] "B" { s := some "Z" }
      (by decide)).2.2.2 "Z" rfl (by decide)

/- ### Record model -/

/-- A field of a derived struct (`syn::Field`, as the derive code uses it):
its identifier, its outer attributes as parsed by
`field.attrs ... parse_meta() = Meta::Word(name)` (so just a list of
attribute names, `"hash"` / `"range"` being the meaningful ones), and the
codec of its declared type — `::dynomite::Attribute::into_attr` /
`from_attr` for that type, into a shared value universe `V`. -/
structure FieldDef (V : Type) where
  name : String
  attrs : List String
  encode : V → AttributeValue
  decode : AttributeValue → Except AttributeError V

/-- A record value: the struct's fields in declaration order, each paired
with the value that the record holds in that field. -/
abbrev Record (V : Type) := List (FieldDef V × V)

/-- The shape (field list) of a record value. -/
def recordFields {V : Type} (r : Record V) : List (FieldDef V) :=
  r.map Prod.fst

/-- Access `self.#field_name`: the value of the (unique) field called
`name`.  The default is never reached for a record that has the field. -/
def recordGet {V : Type} [Inhabited V] (r : Record V) (name : String) : V :=
  ((r.find? (fun fv => fv.1.name = name)).map Prod.snd).getD default

/-- Whether a field carries attribute `a` (`Meta::Word(name) == a`). -/
def hasAttr {V : Type} (f : FieldDef V) (a : String) : Bool :=
  f.attrs.contains a

/- ### Field classifier (`field_with_attribute`) -/

/-- The classifier `field_with_attribute`: filters the fields carrying the attribute,
takes the first; if a second one exists it panics with
`"Can't set more than one {} key"`.  The panic is modelled as
`Except.error` carrying the panic message. -/
def field_with_attribute {V : Type} (fields : List (FieldDef V))
    (attribute_name : String) : Except String (Option (FieldDef V)) :=
  match fields.filter (fun f => hasAttr f attribute_name) with
  | [] => .ok none
  | f :: rest =>
    if rest.isEmpty then .ok (some f)
    else .error ("Can\x27t set more than one " ++ attribute_name ++ " key")

/- ### Mapping generator (`get_to_attribute_map_function`,
     `get_from_attributes_function`) -/

/-- Generated `From<Name> for Attributes`: start from an empty map and,
for each field in declaration order, insert
`(stringify!(field_name), into_attr(item.field_name))`. -/
def to_attributes {V : Type} (r : Record V) : AttrMap :=
  List.foldl (fun m fv => insertKey m fv.1.name (fv.1.encode fv.2)) [] r

/-- The association list a record converts to when its field names are
unique: each field's name paired with its encoded value, in order. -/
def toAttrsList {V : Type} (r : Record V) : AttrMap :=
  r.map (fun fv => (fv.1.name, fv.1.encode fv.2))

/-- Rust `Option::ok_or`. -/
def okOr {α ε : Type} : Option α → ε → Except ε α
  | some a, _ => .ok a
  | none, e => .error e

/-- Generated `FromAttributes::from_attrs`, with the threaded map made
explicit: for each field in declaration order,
`attrs.remove(name).ok_or(MissingField {name})?` then `from_attr` on the
removed value, its error propagated unchanged by `?`; returns the decoded
field values together with the residual (drained) map. -/
def from_attrs_go {V : Type} :
    List (FieldDef V) → AttrMap → Except AttributeError (List V × AttrMap)
  | [], m => .ok ([], m)
  | f :: rest, m => do
    let rm := removeKey f.name m
    let av ← okOr rm.1 (.MissingField f.name)
    let v ← f.decode av
    let p ← from_attrs_go rest rm.2
    pure (v :: p.1, p.2)

/-- Generated `FromAttributes::from_attrs`: the field values recovered
from the map, in declaration order (the drained map is dropped). -/
def from_attrs {V : Type} (fields : List (FieldDef V)) (m : AttrMap) :
    Except AttributeError (List V) :=
  match from_attrs_go fields m with
  | .error e => .error e
  | .ok (vs, _) => .ok vs

/- ### Item trait and key projection (`get_item_trait`,
     `get_key_inserter`, `get_key_struct`) -/

/-- Generated `Item::key(&self)` (`get_item_trait`): classify the hash and
range fields (either classification can panic on duplicates); when no
hash field exists no `impl Item` is emitted at all (`none`); otherwise
build a fresh map inserting the hash field's encoded value and then, when
present, the range field's (`get_key_inserter`, which clones the field
before encoding). -/
def item_key {V : Type} [Inhabited V] (r : Record V) :
    Except String (Option AttrMap) := do
  let hash2 ← field_with_attribute (recordFields r) "hash"
  let range2 ← field_with_attribute (recordFields r) "range"
  match hash2 with
  | none => pure none
  | some hf =>
    let keys := insertKey [] hf.name (hf.encode (recordGet r hf.name))
    let keys :=
      match range2 with
      | none => keys
      | some rf => insertKey keys rf.name (rf.encode (recordGet r rf.name))
    pure (some keys)

/-- The synthesizer `get_key_struct`: classify hash and range (either can panic on
duplicates; the range field, when present, has its attribute list cleared
before the hash field is inspected); with no hash field nothing is
emitted; otherwise a struct named `<Name>Key` holding the hash field and,
when present, the range field, both with their attribute lists cleared. -/
def get_key_struct {V : Type} (name : String) (fields : List (FieldDef V)) :
    Except String (Option (String × List (FieldDef V))) := do
  let hash2 ← field_with_attribute fields "hash"
  let range2 ← field_with_attribute fields "range"
  match hash2 with
  | none => pure none
  | some hk =>
    let stripped :=
      match range2 with
      | none => [{ hk with attrs := [] }]
      | some rk => [{ hk with attrs := [] }, { rk with attrs := [] }]
    pure (some (name ++ "Key", stripped))

/-- What `derive(Item)` emits for one struct (`make_dynomite_item`):
the `From`/`FromAttributes` impls are always emitted and close over the
full field list; the `impl Item` (the key function) is emitted only when a
hash field exists; the `<Name>Key` struct likewise. -/
structure ItemDerivation (V : Type) where
  mappingFields : List (FieldDef V)
  itemImpl : Option (FieldDef V × Option (FieldDef V))
  keyStruct : Option (String × List (FieldDef V))

/-- The expansion `make_dynomite_item` on a named-field struct: runs the classifier
(as `get_item_trait` and `get_key_struct` both do) and records which
pieces of code are emitted.  A classifier panic aborts the whole
derivation. -/
def derive_item {V : Type} (name : String) (fields : List (FieldDef V)) :
    Except String (ItemDerivation V) := do
  let hash2 ← field_with_attribute fields "hash"
  let range2 ← field_with_attribute fields "range"
  let keyStruct ← get_key_struct name fields
  pure
    { mappingFields := fields
      itemImpl := hash2.map (fun hf => (hf, range2))
      keyStruct := keyStruct }

/- ### Map lemmas -/

lemma insertKey_fresh (m : AttrMap) (k : String) (v : AttributeValue)
    (h : k ∉ m.map Prod.fst) : insertKey m k v = m ++ [(k, v)] := by
  unfold insertKey
  congr 1
  apply List.filter_eq_self.mpr
  intro kv hkv
  simp only [decide_eq_true_eq]
  intro he
  exact h (he ▸ List.mem_map_of_mem Prod.fst hkv)

lemma removeKey_cons_self (k : String) (v : AttributeValue) (m : AttrMap) :
    removeKey k ((k, v) :: m) = (some v, m) := by
  simp [removeKey]

lemma removeKey_absent (k : String) :
    ∀ m : AttrMap, k ∉ m.map Prod.fst → removeKey k m = (none, m) := by
  intro m
  induction m with
  | nil => intro _; rfl
  | cons kv rest ih =>
    intro h
    obtain ⟨k2, v⟩ := kv
    have h1 : ¬(k2 = k) := by
      intro he
      exact h (by simp [he])
    have h2 : k ∉ rest.map Prod.fst := by
      intro hm
      exact h (by simp [hm])
    simp [removeKey, h1, ih h2]

lemma removeKey_keys_subset (k x : String) :
    ∀ m : AttrMap, x ∈ (removeKey k m).2.map Prod.fst →
      x ∈ m.map Prod.fst := by
  intro m
  induction m with
  | nil => intro h; exact h
  | cons kv rest ih =>
    obtain ⟨k2, v⟩ := kv
    intro h
    by_cases he : k2 = k
    · subst he
      rw [removeKey_cons_self] at h
      simp only [List.map_cons, List.mem_cons]
      exact Or.inr h
    · simp only [removeKey, if_neg he] at h
      simp only [List.map_cons, List.mem_cons] at h ⊢
      rcases h with h | h
      · exact Or.inl h
      · exact Or.inr (ih h)

/- The `Except` monad operations compute by these unfoldings. -/

@[simp] lemma okOr_some {α ε : Type} (a : α) (e : ε) :
    okOr (some a) e = .ok a := rfl

@[simp] lemma okOr_none {α ε : Type} (e : ε) :
    okOr (none : Option α) e = .error e := rfl

@[simp] lemma ok_bind {α β ε : Type} (a : α) (f : α → Except ε β) :
    (Except.ok a : Except ε α) >>= f = f a := rfl

@[simp] lemma error_bind {α β ε : Type} (e : ε) (f : α → Except ε β) :
    (Except.error e : Except ε α) >>= f = .error e := rfl

@[simp] lemma pure_eq_ok {α ε : Type} (a : α) :
    (pure a : Except ε α) = .ok a := rfl

instance {ε α : Type} [DecidableEq ε] [DecidableEq α] :
    DecidableEq (Except ε α) := fun x y =>
  match x, y with
  | .error a, .error b =>
    decidable_of_iff (a = b)
      (by constructor
          · intro h
            rw [h]
          · intro h
            injection h)
  | .error _, .ok _ => isFalse (fun h => Except.noConfusion h)
  | .ok _, .error _ => isFalse (fun h => Except.noConfusion h)
  | .ok a, .ok b =>
    decidable_of_iff (a = b)
      (by constructor
          · intro h
            rw [h]
          · intro h
            injection h)

/- ### `from_attrs` lemmas -/

lemma from_attrs_go_append {V : Type} (a b : List (FieldDef V)) :
    ∀ m : AttrMap, from_attrs_go (a ++ b) m =
      (do
        let p ← from_attrs_go a m
        let q ← from_attrs_go b p.2
        pure (p.1 ++ q.1, q.2)) := by
  induction a with
  | nil =>
    intro m
    simp only [List.nil_append, from_attrs_go, ok_bind]
    cases hgb : from_attrs_go b m with
    | error e => simp
    | ok q => simp
  | cons f a ih =>
    intro m
    simp only [List.cons_append, from_attrs_go]
    rcases hrm : removeKey f.name m with ⟨o, m1⟩
    cases o with
    | none => simp
    | some av =>
      simp only [okOr_some, ok_bind]
      cases hdec : f.decode av with
      | error e => simp
      | ok v =>
        simp only [ok_bind, List.append_eq]
        rw [ih m1]
        cases hga : from_attrs_go a m1 with
        | error e => simp
        | ok p =>
          simp only [ok_bind, pure_eq_ok]
          cases hgb : from_attrs_go b p.2 with
          | error e => simp
          | ok q => simp

lemma from_attrs_go_keys_subset {V : Type} :
    ∀ (fields : List (FieldDef V)) (m : AttrMap) (vs : List V)
      (m1 : AttrMap), from_attrs_go fields m = .ok (vs, m1) →
      ∀ x, x ∈ m1.map Prod.fst → x ∈ m.map Prod.fst := by
  intro fields
  induction fields with
  | nil =>
    intro m vs m1 h x hx
    simp only [from_attrs_go, Except.ok.injEq, Prod.mk.injEq] at h
    exact h.2 ▸ hx
  | cons f rest ih =>
    intro m vs m1 h x hx
    simp only [from_attrs_go] at h
    rcases hrm : removeKey f.name m with ⟨o, mrem⟩
    rw [hrm] at h
    cases o with
    | none => exact absurd h (by simp)
    | some av =>
      simp only [okOr_some, ok_bind] at h
      cases hdec : f.decode av with
      | error e =>
        rw [hdec] at h
        exact absurd h (by simp)
      | ok v =>
        rw [hdec] at h
        simp only [ok_bind] at h
        rcases hgo : from_attrs_go rest mrem with e | p
        · rw [hgo] at h
          exact absurd h (by simp)
        · obtain ⟨ws, m2⟩ := p
          rw [hgo] at h
          simp only [ok_bind, pure_eq_ok, Except.ok.injEq,
            Prod.mk.injEq] at h
          have hx2 : x ∈ mrem.map Prod.fst :=
            ih mrem ws m2 hgo x (h.2 ▸ hx)
          have hsnd : mrem = (removeKey f.name m).2 := by rw [hrm]
          exact removeKey_keys_subset f.name x m (hsnd ▸ hx2)

lemma from_attrs_eq_go {V : Type} (fields : List (FieldDef V))
    (m : AttrMap) :
    from_attrs fields m =
      match from_attrs_go fields m with
      | .error e => .error e
      | .ok (vs, _) => .ok vs := rfl

/- ### `to_attributes` as an association list -/

lemma to_attributes_acc {V : Type} :
    ∀ (r : Record V) (acc : AttrMap),
      (∀ fv ∈ r, fv.1.name ∉ acc.map Prod.fst) →
      (r.map (fun fv => fv.1.name)).Nodup →
      List.foldl (fun m fv => insertKey m fv.1.name (fv.1.encode fv.2))
        acc r = acc ++ toAttrsList r := by
  intro r
  induction r with
  | nil =>
    intro acc _ _
    simp [toAttrsList]
  | cons fv rest ih =>
    intro acc hfresh hnd
    simp only [List.map_cons, List.nodup_cons] at hnd
    simp only [List.foldl_cons]
    rw [insertKey_fresh acc fv.1.name (fv.1.encode fv.2)
      (hfresh fv (List.mem_cons_self fv rest))]
    have hfresh2 : ∀ gv ∈ rest,
        gv.1.name ∉ (acc ++ [(fv.1.name, fv.1.encode fv.2)]).map Prod.fst := by
      intro gv hgv
      simp only [List.map_append, List.mem_append, List.map_cons,
        List.map_nil, List.mem_singleton]
      rintro (hin | hin)
      · exact hfresh gv (List.mem_cons_of_mem fv hgv) hin
      · exact hnd.1 (hin ▸ List.mem_map_of_mem (fun fv => fv.1.name) hgv)
    rw [ih (acc ++ [(fv.1.name, fv.1.encode fv.2)]) hfresh2 hnd.2,
      List.append_assoc]
    simp [toAttrsList]

lemma to_attributes_eq_toAttrsList {V : Type} (r : Record V)
    (hnd : (r.map (fun fv => fv.1.name)).Nodup) :
    to_attributes r = toAttrsList r := by
  have h := to_attributes_acc r [] (by simp) hnd
  simpa [to_attributes] using h

lemma recordNames_eq {V : Type} (r : Record V) :
    (recordFields r).map FieldDef.name = r.map (fun fv => fv.1.name) := by
  simp only [recordFields, List.map_map]
  rfl

/- ### Round trip -/

lemma from_attrs_go_toAttrsList {V : Type} :
    ∀ r : Record V,
      (∀ fv ∈ r, fv.1.decode (fv.1.encode fv.2) = .ok fv.2) →
      from_attrs_go (recordFields r) (toAttrsList r) =
        .ok (r.map Prod.snd, []) := by
  intro r
  induction r with
  | nil => intro _; rfl
  | cons fv rest ih =>
    intro h
    obtain ⟨fd, v⟩ := fv
    have hd : fd.decode (fd.encode v) = .ok v :=
      h (fd, v) (List.mem_cons_self (fd, v) rest)
    have ih2 := ih (fun gv hgv => h gv (List.mem_cons_of_mem (fd, v) hgv))
    simp only [recordFields, toAttrsList, List.map_cons, from_attrs_go,
      removeKey_cons_self, okOr_some, ok_bind]
    simp only [recordFields, toAttrsList] at ih2
    rw [hd]
    simp only [ok_bind]
    rw [ih2]
    simp

/-- C1: converting a record to an attribute map with the generated
`From<Name> for Attributes` and back with the generated
`FromAttributes::from_attrs` recovers exactly the original field values,
for every record whose field names are unique (as a Rust struct's are) and
whose per-field codecs round-trip. -/
theorem from_attrs_to_attributes_roundtrip {V : Type} (r : Record V)
    (hnd : ((recordFields r).map FieldDef.name).Nodup)
    (hrt : ∀ fv ∈ r, fv.1.decode (fv.1.encode fv.2) = .ok fv.2) :
    from_attrs (recordFields r) (to_attributes r) = .ok (r.map Prod.snd) := by
  rw [recordNames_eq] at hnd
  rw [from_attrs_eq_go, to_attributes_eq_toAttrsList r hnd,
    from_attrs_go_toAttrsList r hrt]

/- ### Unknown-key tolerance -/

lemma removeKey_filter (k : String) (p : String → Bool) (hp : p k = true) :
    ∀ m : AttrMap,
      removeKey k (m.filter (fun kv => p kv.1)) =
        ((removeKey k m).1, (removeKey k m).2.filter (fun kv => p kv.1)) := by
  intro m
  induction m with
  | nil => rfl
  | cons kv rest ih =>
    obtain ⟨k2, v⟩ := kv
    by_cases he : k2 = k
    · subst he
      simp [List.filter_cons, hp, removeKey]
    · by_cases hk2 : p k2 = true
      · simp only [List.filter_cons, hk2, if_true, removeKey, if_neg he, ih]
      · have hk2f : p k2 = false := by
          cases hpk : p k2 with
          | true => exact absurd hpk hk2
          | false => rfl
        simp only [List.filter_cons, hk2f, if_false, removeKey, if_neg he,
          cond_false, Bool.false_eq_true]
        exact ih

lemma from_attrs_go_filter {V : Type} (p : String → Bool) :
    ∀ (fields : List (FieldDef V)) (m : AttrMap),
      (∀ f ∈ fields, p f.name = true) →
      from_attrs_go fields (m.filter (fun kv => p kv.1)) =
        match from_attrs_go fields m with
        | .error e => .error e
        | .ok (vs, m1) => .ok (vs, m1.filter (fun kv => p kv.1)) := by
  intro fields
  induction fields with
  | nil => intro m _; rfl
  | cons f rest ih =>
    intro m hall
    have hf : p f.name = true := hall f (List.mem_cons_self f rest)
    simp only [from_attrs_go, removeKey_filter f.name p hf m]
    rcases hrm2 : removeKey f.name m with ⟨o, mrem⟩
    cases o with
    | none => simp
    | some av =>
      simp only [okOr_some, ok_bind]
      cases hdec : f.decode av with
      | error e => simp
      | ok v =>
        simp only [ok_bind]
        rw [ih mrem (fun g hg => hall g (List.mem_cons_of_mem f hg))]
        cases hgo : from_attrs_go rest mrem with
        | error e => simp
        | ok q => simp

/-- C9: extra keys that name no declared field are silently ignored:
`from_attrs` computes the same result on a map and on its restriction to
the declared field names, so adding any number of unknown-key entries
never changes a successful conversion and never causes a failure. -/
theorem from_attrs_ignores_extra_keys {V : Type}
    (fields : List (FieldDef V)) (m : AttrMap) :
    from_attrs fields
        (m.filter (fun kv => (fields.map FieldDef.name).contains kv.1)) =
      from_attrs fields m := by
  have hall : ∀ f ∈ fields,
      (fields.map FieldDef.name).contains f.name = true := by
    intro f hf
    have hmem : f.name ∈ fields.map FieldDef.name :=
      List.mem_map_of_mem FieldDef.name hf
    exact List.elem_eq_true_of_mem hmem
  rw [from_attrs_eq_go, from_attrs_eq_go,
    from_attrs_go_filter (fun s => (fields.map FieldDef.name).contains s)
      fields m hall]
  cases from_attrs_go fields m with
  | error e => rfl
  | ok p => rfl

/- ### Concrete instances (the spec's `Person`/`Book`-style examples),
used to evaluate the theorems on closed inputs. -/

/-- The string scalar codec, modelled from the spec contract (§4.1): wrap
into the string variant; decode is `a.s.ok_or(InvalidType)`. -/
def strEncode (v : String) : AttributeValue := { s := some v }

/-- Inverse of `strEncode`. -/
def strDecode (a : AttributeValue) : Except AttributeError String :=
  okOr a.s .InvalidType

/-- The number scalar codec, modelled from the spec contract (§4.1). -/
def numEncode (v : String) : AttributeValue := { n := some v }

/-- Inverse of `numEncode`. -/
def numDecode (a : AttributeValue) : Except AttributeError String :=
  okOr a.n .InvalidType

def idField : FieldDef String :=
  { name := "id", attrs := ["hash"], encode := strEncode,
    decode := strDecode }

def idField2 : FieldDef String :=
  { name := "id2", attrs := ["hash"], encode := strEncode,
    decode := strDecode }

def yearField : FieldDef String :=
  { name := "year", attrs := ["range"], encode := numEncode,
    decode := numDecode }

def nameField : FieldDef String :=
  { name := "name", attrs := [], encode := strEncode,
    decode := strDecode }

def ageField : FieldDef String :=
  { name := "age", attrs := [], encode := numEncode,
    decode := numDecode }

def bookRecord : Record String :=
  [(idField, "123"), (yearField, "1984"), (nameField, "Ann")]

/-- Witness for C1 on a three-field record with a hash, a range and a
plain field. -/
theorem from_attrs_to_attributes_roundtrip_witness :
    from_attrs (recordFields bookRecord) (to_attributes bookRecord) =
      .ok (bookRecord.map Prod.snd) :=
  from_attrs_to_attributes_roundtrip bookRecord (by decide) (by decide)

/- ### Missing-field and decode-failure behaviour of `from_attrs` -/

/-- C5: `from_attrs` processes fields in declaration order; when every
field before `f` resolves (is present and decodes), and `f` is absent
from the map, the whole conversion fails with `MissingField` carrying
exactly `f`'s name — a single short-circuiting error, no accumulation,
no partial record. -/
theorem missing_field_first_failure {V : Type}
    (pre post : List (FieldDef V)) (f : FieldDef V) (m : AttrMap)
    (vs : List V) (m1 : AttrMap)
    (hpre : from_attrs_go pre m = .ok (vs, m1))
    (habs : f.name ∉ m.map Prod.fst) :
    from_attrs (pre ++ f :: post) m = .error (.MissingField f.name) := by
  have habs1 : f.name ∉ m1.map Prod.fst := fun hx =>
    habs (from_attrs_go_keys_subset pre m vs m1 hpre f.name hx)
  have hstep : from_attrs_go (f :: post) m1 =
      .error (.MissingField f.name) := by
    simp only [from_attrs_go]
    rw [removeKey_absent f.name m1 habs1]
    simp
  have hgo : from_attrs_go (pre ++ f :: post) m =
      .error (.MissingField f.name) := by
    rw [from_attrs_go_append pre (f :: post) m, hpre]
    simp only [ok_bind]
    rw [hstep]
    simp
  rw [from_attrs_eq_go, hgo]

/-- Witness for C5: the map holds `id` but lacks `year`; the error names
`year`, not the later also-missing `name`. -/
theorem missing_field_first_failure_witness :
    from_attrs [idField, yearField, nameField] [("id", strEncode "123")] =
      .error (.MissingField "year") :=
  missing_field_first_failure [idField] [nameField] yearField
    [("id", strEncode "123")] ["123"] [] (by decide) (by decide)

/-- C2 counterexample: on a map whose `age` entry is present but fails the
number codec, `from_attrs` returns the codec error `InvalidType`
unchanged — not `InvalidField {name, cause}` — and that error carries no
field name. -/
theorem decode_failure_lacks_field_name_cex :
    from_attrs [ageField] [("age", strEncode "x")] =
      .error .InvalidType ∧
    errorFieldName .InvalidType = none := by
  constructor
  · decide
  · rfl

/-- C2 amended: when every field before `f` resolves, `f`'s entry is
present, and `f`'s codec fails with error `e`, the generated
`from_attrs` fails with `e` itself, propagated unchanged by `?` — only
the missing-field case wraps the field name into the error. -/
theorem decode_failure_propagates_codec_error {V : Type}
    (pre post : List (FieldDef V)) (f : FieldDef V) (m : AttrMap)
    (vs : List V) (m1 : AttrMap) (av : AttributeValue) (m2 : AttrMap)
    (e : AttributeError)
    (hpre : from_attrs_go pre m = .ok (vs, m1))
    (hrm : removeKey f.name m1 = (some av, m2))
    (hdec : f.decode av = .error e) :
    from_attrs (pre ++ f :: post) m = .error e := by
  have hstep : from_attrs_go (f :: post) m1 = .error e := by
    simp only [from_attrs_go]
    rw [hrm]
    simp [hdec]
  have hgo : from_attrs_go (pre ++ f :: post) m = .error e := by
    rw [from_attrs_go_append pre (f :: post) m, hpre]
    simp only [ok_bind]
    rw [hstep]
    simp
  rw [from_attrs_eq_go, hgo]

/-- Witness for the amended C2: `id` decodes, `age` is present but fails
with `InvalidType`, and the conversion reports exactly `InvalidType`. -/
theorem decode_failure_propagates_codec_error_witness :
    from_attrs [idField, ageField]
        [("id", strEncode "1"), ("age", strEncode "x")] =
      .error .InvalidType :=
  decode_failure_propagates_codec_error [idField] [] ageField
    [("id", strEncode "1"), ("age", strEncode "x")] ["1"]
    [("age", strEncode "x")] (strEncode "x") [] .InvalidType
    (by decide) (by decide) (by decide)

/- ### Field classification -/

/-- C6: classification is a function of the record definition alone (no
record instance is involved): with two or more fields carrying the role
attribute it fails fatally with the panic message naming the offending
role; with exactly one such field it returns that field; with none it
returns `none`. -/
theorem duplicate_role_classification {V : Type}
    (fields : List (FieldDef V)) (a : String) :
    (2 ≤ (fields.filter (fun f => hasAttr f a)).length →
      field_with_attribute fields a =
        .error ("Can\x27t set more than one " ++ a ++ " key")) ∧
    (∀ f : FieldDef V, fields.filter (fun f => hasAttr f a) = [f] →
      field_with_attribute fields a = .ok (some f)) ∧
    (fields.filter (fun f => hasAttr f a) = [] →
      field_with_attribute fields a = .ok none) := by
  refine ⟨?_, ?_, ?_⟩
  · intro h2
    unfold field_with_attribute
    rcases hflt : fields.filter (fun f => hasAttr f a) with _ | ⟨g, rest⟩
    · rw [hflt] at h2
      simp at h2
    · rw [hflt] at h2
      cases rest with
      | nil => simp at h2
      | cons g2 r2 => simp [List.isEmpty]
  · intro f hf
    unfold field_with_attribute
    rw [hf]
    simp [List.isEmpty]
  · intro hf
    unfold field_with_attribute
    rw [hf]

/-- Witness for C6: two hash-tagged fields panic naming "hash"; one
hash-tagged field is returned; no hash-tagged field yields `none`. -/
theorem duplicate_role_classification_witness :
    field_with_attribute [idField, idField2] "hash" =
      .error ("Can\x27t set more than one " ++ "hash" ++ " key") ∧
    field_with_attribute [idField, nameField] "hash" = .ok (some idField) ∧
    field_with_attribute [nameField] "hash" = .ok none := by
  refine ⟨?_, ?_, ?_⟩
  · exact (duplicate_role_classification [idField, idField2] "hash").1
      (by decide)
  · exact (duplicate_role_classification [idField, nameField] "hash").2.1
      idField rfl
  · exact (duplicate_role_classification [nameField] "hash").2.2 rfl

/- ### Key struct synthesis -/

/-- C7 counterexample: for `Book {id [hash], year [range], name}` the
source record classifies `id` as the hash field, but the synthesized
`BookKey` fields have their attribute lists cleared — the role tags are
not preserved — and re-classifying the key struct finds no hash field at
all. -/
theorem key_struct_preserves_role_tags_cex :
    field_with_attribute [idField, yearField, nameField] "hash" =
      .ok (some idField) ∧
    get_key_struct "Book" [idField, yearField, nameField] =
      .ok (some ("BookKey",
        [{ idField with attrs := [] }, { yearField with attrs := [] }])) ∧
    ({ idField with attrs := [] } : FieldDef String).attrs ≠
      idField.attrs ∧
    field_with_attribute
      [({ idField with attrs := [] } : FieldDef String),
        { yearField with attrs := [] }] "hash" = .ok none := by
  refine ⟨rfl, rfl, by decide, rfl⟩

/-- C7 amended: the synthesized `<Name>Key` struct contains exactly the
hash field and, when present, the range field, preserving their names and
codecs (types), but with their role tags stripped (`attrs = []`); it is a
first-class record definition fed back through the same machinery, yet
re-classifying it yields no hash and no range role. -/
theorem key_struct_strips_role_tags {V : Type} (name : String)
    (fields : List (FieldDef V)) (hk : FieldDef V)
    (range2 : Option (FieldDef V))
    (hh : field_with_attribute fields "hash" = .ok (some hk))
    (hr : field_with_attribute fields "range" = .ok range2) :
    get_key_struct name fields =
      .ok (some (name ++ "Key",
        { hk with attrs := [] } ::
          (range2.map (fun rk => { rk with attrs := [] })).toList)) ∧
    (∀ f ∈ { hk with attrs := [] } ::
        (range2.map (fun rk => { rk with attrs := [] })).toList,
      FieldDef.attrs f = []) ∧
    field_with_attribute
      ({ hk with attrs := [] } ::
        (range2.map (fun rk => { rk with attrs := [] })).toList) "hash" =
      .ok none ∧
    field_with_attribute
      ({ hk with attrs := [] } ::
        (range2.map (fun rk => { rk with attrs := [] })).toList) "range" =
      .ok none := by
  cases range2 with
  | none =>
    refine ⟨?_, ?_, ?_, ?_⟩
    · simp [get_key_struct, hh, hr]
    · intro f hf
      simp at hf
      rw [hf]
    · simp [field_with_attribute, hasAttr, List.filter]
    · simp [field_with_attribute, hasAttr, List.filter]
  | some rk =>
    refine ⟨?_, ?_, ?_, ?_⟩
    · simp [get_key_struct, hh, hr]
    · intro f hf
      simp at hf
      rcases hf with hf | hf <;> rw [hf]
    · simp [field_with_attribute, hasAttr, List.filter]
    · simp [field_with_attribute, hasAttr, List.filter]

/-- Witness for the amended C7 on the `Book` record. -/
theorem key_struct_strips_role_tags_witness :
    get_key_struct "Book" [idField, yearField, nameField] =
      .ok (some ("Book" ++ "Key",
        { idField with attrs := [] } ::
          ((some yearField).map
            (fun rk => { rk with attrs := [] })).toList)) ∧
    field_with_attribute
      ({ idField with attrs := [] } ::
        ((some yearField).map
          (fun rk => { rk with attrs := [] })).toList) "hash" =
      .ok none :=
  ⟨(key_struct_strips_role_tags "Book" [idField, yearField, nameField]
      idField (some yearField) rfl rfl).1,
    (key_struct_strips_role_tags "Book" [idField, yearField, nameField]
      idField (some yearField) rfl rfl).2.2.1⟩

/- ### Non-keyed records -/

/-- C8: a record definition with no hash-tagged field (and a well-formed
range role, as the data model requires) derives successfully: the
to-attributes and from-attributes impls are still emitted over all the
fields, but no `impl Item` and no `<Name>Key` struct are generated, and
the key function exists for no record of that shape. -/
theorem no_hash_derivation {V : Type} [Inhabited V] (name : String)
    (fields : List (FieldDef V)) (range2 : Option (FieldDef V))
    (hh : field_with_attribute fields "hash" = .ok none)
    (hr : field_with_attribute fields "range" = .ok range2) :
    derive_item name fields =
      .ok { mappingFields := fields, itemImpl := none,
            keyStruct := none } ∧
    ∀ r : Record V, recordFields r = fields → item_key r = .ok none := by
  constructor
  · simp [derive_item, get_key_struct, hh, hr]
  · intro r hrf
    simp [item_key, hrf, hh, hr]

/-- Witness for C8 on a two-field record with no role tags at all. -/
theorem no_hash_derivation_witness :
    derive_item "Plain" [nameField, ageField] =
      .ok { mappingFields := [nameField, ageField], itemImpl := none,
            keyStruct := none } ∧
    item_key [(nameField, "Ann"), (ageField, "3")] = .ok none := by
  have h := no_hash_derivation "Plain" [nameField, ageField] none rfl rfl
  exact ⟨h.1, h.2 [(nameField, "Ann"), (ageField, "3")] rfl⟩

/- ### Key extraction (`Item::key`) -/

/-- The Key Record built from a source record: the synthesized key fields
(role tags stripped, as `get_key_struct` emits them) paired with the
source record's values at those fields. -/
def keyProjection {V : Type} [Inhabited V] (r : Record V)
    (hf : FieldDef V) (range2 : Option (FieldDef V)) : Record V :=
  ({ hf with attrs := [] }, recordGet r hf.name) ::
    (range2.map
      (fun rf => ({ rf with attrs := [] }, recordGet r rf.name))).toList

lemma item_key_eq {V : Type} [Inhabited V] (r : Record V)
    (hf : FieldDef V) (range2 : Option (FieldDef V))
    (hh : field_with_attribute (recordFields r) "hash" = .ok (some hf))
    (hr : field_with_attribute (recordFields r) "range" = .ok range2) :
    item_key r = .ok (some (to_attributes (keyProjection r hf range2))) := by
  cases range2 with
  | none => simp [item_key, hh, hr, keyProjection, to_attributes]
  | some rf => simp [item_key, hh, hr, keyProjection, to_attributes]

/-- C3: for a record with a classified hash field (and optional range
field), the generated key function returns exactly `to_attributes`
applied to the Key Record built from the record's key fields, and that
map has exactly 1 or 2 entries. -/
theorem item_key_eq_key_projection_to_attributes {V : Type} [Inhabited V]
    (r : Record V) (hf : FieldDef V) (range2 : Option (FieldDef V))
    (hh : field_with_attribute (recordFields r) "hash" = .ok (some hf))
    (hr : field_with_attribute (recordFields r) "range" = .ok range2) :
    item_key r = .ok (some (to_attributes (keyProjection r hf range2))) ∧
    ((to_attributes (keyProjection r hf range2)).length = 1 ∨
      (to_attributes (keyProjection r hf range2)).length = 2) := by
  refine ⟨item_key_eq r hf range2 hh hr, ?_⟩
  cases range2 with
  | none =>
    left
    simp [keyProjection, to_attributes, insertKey]
  | some rf =>
    by_cases hn : hf.name = rf.name
    · left
      simp [keyProjection, to_attributes, insertKey, hn]
    · right
      simp [keyProjection, to_attributes, insertKey, hn]

/-- Witness for C3 on the `Book` record (hash `id`, range `year`). -/
theorem item_key_eq_key_projection_to_attributes_witness :
    item_key bookRecord =
      .ok (some (to_attributes
        (keyProjection bookRecord idField (some yearField)))) ∧
    ((to_attributes (keyProjection bookRecord idField
        (some yearField))).length = 1 ∨
      (to_attributes (keyProjection bookRecord idField
        (some yearField))).length = 2) :=
  item_key_eq_key_projection_to_attributes bookRecord idField
    (some yearField) rfl rfl

/- ### Agreement of `key` with `to_attributes` on the key fields -/

lemma field_with_attribute_ok_some {V : Type} (fields : List (FieldDef V))
    (a : String) (f : FieldDef V)
    (h : field_with_attribute fields a = .ok (some f)) :
    f ∈ fields ∧ hasAttr f a = true := by
  unfold field_with_attribute at h
  rcases hflt : fields.filter (fun g => hasAttr g a) with _ | ⟨g, rest⟩
  · rw [hflt] at h
    simp at h
  · rw [hflt] at h
    have h2 : (if rest.isEmpty = true
          then (Except.ok (some g) : Except String (Option (FieldDef V)))
          else .error ("Can\x27t set more than one " ++ a ++ " key")) =
        .ok (some f) := h
    cases hrest : rest.isEmpty with
    | true =>
      rw [hrest] at h2
      simp at h2
      have hg : g ∈ fields.filter (fun g => hasAttr g a) :=
        hflt ▸ List.mem_cons_self g rest
      rw [List.mem_filter] at hg
      exact h2 ▸ hg
    | false =>
      rw [hrest] at h2
      simp at h2

lemma mem_recordFields_pair {V : Type} (r : Record V) (fd : FieldDef V)
    (h : fd ∈ recordFields r) : ∃ v, (fd, v) ∈ r := by
  simp only [recordFields, List.mem_map] at h
  obtain ⟨fv, hfv, heq⟩ := h
  refine ⟨fv.2, ?_⟩
  have hpair : (fv.1, fv.2) ∈ r := by
    rw [Prod.mk.eta]
    exact hfv
  rw [heq] at hpair
  exact hpair

lemma recordGet_of_mem {V : Type} [Inhabited V] :
    ∀ (r : Record V) (fd : FieldDef V) (v : V),
      (r.map (fun fv => fv.1.name)).Nodup → (fd, v) ∈ r →
      recordGet r fd.name = v := by
  intro r
  induction r with
  | nil =>
    intro fd v _ hmem
    cases hmem
  | cons gv rest ih =>
    intro fd v hnd hmem
    simp only [List.map_cons, List.nodup_cons] at hnd
    rcases List.mem_cons.mp hmem with hmem | hmem
    · rw [← hmem]
      simp [recordGet, List.find?]
    · have hne : ¬(gv.1.name = fd.name) := by
        intro he
        apply hnd.1
        rw [he]
        exact List.mem_map_of_mem (fun fv => fv.1.name) hmem
      have hstep : recordGet (gv :: rest) fd.name = recordGet rest fd.name := by
        simp [recordGet, List.find?, hne]
      rw [hstep]
      exact ih fd v hnd.2 hmem

lemma lookupKey_toAttrsList {V : Type} :
    ∀ (r : Record V) (fd : FieldDef V) (v : V),
      (r.map (fun fv => fv.1.name)).Nodup → (fd, v) ∈ r →
      lookupKey (toAttrsList r) fd.name = some (fd.encode v) := by
  intro r
  induction r with
  | nil =>
    intro fd v _ hmem
    cases hmem
  | cons gv rest ih =>
    intro fd v hnd hmem
    simp only [List.map_cons, List.nodup_cons] at hnd
    rcases List.mem_cons.mp hmem with hmem | hmem
    · rw [← hmem]
      simp [lookupKey, toAttrsList, List.find?]
    · have hne : ¬(gv.1.name = fd.name) := by
        intro he
        apply hnd.1
        rw [he]
        exact List.mem_map_of_mem (fun fv => fv.1.name) hmem
      have hstep : lookupKey (toAttrsList (gv :: rest)) fd.name =
          lookupKey (toAttrsList rest) fd.name := by
        simp [lookupKey, toAttrsList, List.find?, hne]
      rw [hstep]
      exact ih fd v hnd.2 hmem

lemma lookup_to_attributes {V : Type} (r : Record V) (fd : FieldDef V)
    (v : V) (hnd : (r.map (fun fv => fv.1.name)).Nodup)
    (hmem : (fd, v) ∈ r) :
    lookupKey (to_attributes r) fd.name = some (fd.encode v) := by
  rw [to_attributes_eq_toAttrsList r hnd]
  exact lookupKey_toAttrsList r fd v hnd hmem

lemma to_attributes_keyProjection_none {V : Type} [Inhabited V]
    (r : Record V) (hf : FieldDef V) :
    to_attributes (keyProjection r hf none) =
      [(hf.name, hf.encode (recordGet r hf.name))] := by
  simp [keyProjection, to_attributes, insertKey]

lemma to_attributes_keyProjection_some {V : Type} [Inhabited V]
    (r : Record V) (hf rf : FieldDef V) (hne : ¬(hf.name = rf.name)) :
    to_attributes (keyProjection r hf (some rf)) =
      [(hf.name, hf.encode (recordGet r hf.name)),
        (rf.name, rf.encode (recordGet r rf.name))] := by
  simp [keyProjection, to_attributes, insertKey, hne]

/-- C10: the generated key function reads the record without consuming
it (it takes `&self` and clones the key fields), so key extraction and a
full `to_attributes` conversion of the same record agree on every key
field: looking the hash (and range) field name up in `key(r)` and in
`to_attributes(r)` gives the same encoded value. -/
theorem item_key_agrees_with_to_attributes {V : Type} [Inhabited V]
    (r : Record V) (hf : FieldDef V) (range2 : Option (FieldDef V))
    (hnd : ((recordFields r).map FieldDef.name).Nodup)
    (hh : field_with_attribute (recordFields r) "hash" = .ok (some hf))
    (hr : field_with_attribute (recordFields r) "range" = .ok range2)
    (hdist : ∀ rf ∈ range2, rf.name ≠ hf.name) :
    item_key r = .ok (some (to_attributes (keyProjection r hf range2))) ∧
    lookupKey (to_attributes (keyProjection r hf range2)) hf.name =
      lookupKey (to_attributes r) hf.name ∧
    ∀ rf ∈ range2,
      lookupKey (to_attributes (keyProjection r hf range2)) rf.name =
        lookupKey (to_attributes r) rf.name := by
  rw [recordNames_eq] at hnd
  obtain ⟨hfmem, -⟩ := field_with_attribute_ok_some (recordFields r)
    "hash" hf hh
  obtain ⟨vh, hvh⟩ := mem_recordFields_pair r hf hfmem
  have hgeth : recordGet r hf.name = vh := recordGet_of_mem r hf vh hnd hvh
  have hlookh : lookupKey (to_attributes r) hf.name =
      some (hf.encode vh) := lookup_to_attributes r hf vh hnd hvh
  refine ⟨item_key_eq r hf range2 hh hr, ?_, ?_⟩
  · cases range2 with
    | none =>
      rw [to_attributes_keyProjection_none r hf, hlookh]
      simp [lookupKey, List.find?, hgeth]
    | some rf =>
      have hne : rf.name ≠ hf.name := hdist rf rfl
      rw [to_attributes_keyProjection_some r hf rf
        (fun he => hne he.symm), hlookh]
      simp [lookupKey, List.find?, hgeth]
  · intro rf hrf
    cases range2 with
    | none => cases hrf
    | some rf2 =>
      have hrfeq : rf = rf2 := by
        cases hrf
        rfl
      subst hrfeq
      have hne : rf.name ≠ hf.name := hdist rf rfl
      obtain ⟨hrmem, -⟩ := field_with_attribute_ok_some (recordFields r)
        "range" rf hr
      obtain ⟨vg, hvg⟩ := mem_recordFields_pair r rf hrmem
      have hgetr : recordGet r rf.name = vg :=
        recordGet_of_mem r rf vg hnd hvg
      have hlookr : lookupKey (to_attributes r) rf.name =
          some (rf.encode vg) := lookup_to_attributes r rf vg hnd hvg
      rw [to_attributes_keyProjection_some r hf rf
        (fun he => hne he.symm), hlookr]
      simp [lookupKey, List.find?, hgetr, Ne.symm hne]

/-- Witness for C10 on the `Book` record. -/
theorem item_key_agrees_with_to_attributes_witness :
    item_key bookRecord =
      .ok (some (to_attributes
        (keyProjection bookRecord idField (some yearField)))) ∧
    lookupKey (to_attributes
        (keyProjection bookRecord idField (some yearField))) "id" =
      lookupKey (to_attributes bookRecord) "id" := by
  have h := item_key_agrees_with_to_attributes bookRecord idField
    (some yearField) (by decide) rfl rfl
    (by
      intro rf hrf
      cases hrf
      decide)
  exact ⟨h.1, h.2.1⟩

end Dynomite
